import Mathlib

/-!
Verification of the same-domain web crawler (src/main.rs).

The development shallowly embeds the crawler in Lean:

* the `url` crate operations the code uses (`Url::parse`, `Url::join`,
  `Url::domain`, `Url::to_string`) are modelled by an executable parser for
  hierarchical `scheme://host/path?query#fragment` URLs, with lowercasing of
  scheme and host and WHATWG-style dot-segment removal.  Model restrictions:
  no userinfo, no ports, no IPv6 literals, no percent-encoding, and
  non-hierarchical (`mailto:`-style) references are treated as unparseable.
* the `scraper` HTML parsing is modelled by a flat start-tag tokenizer that
  skips comments; `document.select` over the selector
  `a, link, script, img, source` is element enumeration in document order.
* the `regex` strategy is modelled by a direct scanner for the pattern
  `(?i)(?:href|src)=["<q>]([^"<q>]+)["<q>]` (either quote on either side,
  matching the Rust regex, which does not require the quotes to agree).
* the crawl loop (`Crawler::crawl`) is embedded with an explicit state
  (queue, visited list, accumulated results), a fuel parameter in place of
  general recursion, and a fetch oracle `String -> Except String Response`
  standing for the HTTP client.  The `?` operators on `response.text()` /
  `response.bytes()` are modelled by `Except` propagation; the `?` on
  `parse_html` never fires because extraction is total.
-/

/-! ## Definitions -/

/-- Double-quote character. -/
def dqc : Char := Char.ofNat 34

/-- Single-quote character. -/
def sqc : Char := Char.ofNat 39

/-- Backslash character. -/
def bslc : Char := Char.ofNat 92

/-- Longest prefix of `l` whose characters all satisfy `p`. -/
def takeW (p : Char → Bool) : List Char → List Char
  | [] => []
  | c :: cs => if p c then c :: takeW p cs else []

/-- What remains of `l` after `takeW p l`. -/
def dropW (p : Char → Bool) : List Char → List Char
  | [] => []
  | c :: cs => if p c then dropW p cs else c :: cs

/-- Split a character list at every occurrence of `sep`; never returns `[]`. -/
def splitChar (sep : Char) : List Char → List (List Char)
  | [] => [[]]
  | c :: cs =>
    match splitChar sep cs with
    | [] => [[]]
    | s :: rest => if c = sep then [] :: s :: rest else (c :: s) :: rest

/-- The uppercase/lowercase ASCII letter table. -/
def upperLower : List (Char × Char) :=
  [('A', 'a'), ('B', 'b'), ('C', 'c'), ('D', 'd'), ('E', 'e'), ('F', 'f'),
   ('G', 'g'), ('H', 'h'), ('I', 'i'), ('J', 'j'), ('K', 'k'), ('L', 'l'),
   ('M', 'm'), ('N', 'n'), ('O', 'o'), ('P', 'p'), ('Q', 'q'), ('R', 'r'),
   ('S', 's'), ('T', 't'), ('U', 'u'), ('V', 'v'), ('W', 'w'), ('X', 'x'),
   ('Y', 'y'), ('Z', 'z')]

/-- ASCII lowercasing of one character, as applied by the URL parser to
schemes and domain hosts. -/
def lowerChar (c : Char) : Char :=
  match upperLower.find? (fun p => p.fst == c) with
  | some p => p.snd
  | none => c

/-- ASCII lowercasing of a character list. -/
def lowerChars (l : List Char) : List Char := l.map lowerChar

/-- A parsed absolute URL (model of `url::Url`). -/
structure Url where
  scheme : List Char
  host : List Char
  path : List (List Char)
  query : Option (List Char)
  fragment : Option (List Char)
deriving Repr, DecidableEq

/-- Characters that may appear in a host. -/
def badHostChar (c : Char) : Bool :=
  c == '/' || c == '?' || c == '#' || c == '@' || c == ':' ||
  c == '[' || c == ']' || c == bslc

/-- A host is acceptable when nonempty and free of structural characters. -/
def hostOk (h : List Char) : Bool := !h.isEmpty && h.all (fun c => !badHostChar c)

/-- Characters that continue the authority component. -/
def isHostChar (c : Char) : Bool := !(c == '/') && !(c == '?') && !(c == '#')

/-- Characters that continue the path component. -/
def isPathChar (c : Char) : Bool := !(c == '?') && !(c == '#')

/-- Characters that continue the query component. -/
def isQChar (c : Char) : Bool := !(c == '#')

/-- WHATWG-style path-segment accumulation: `..` pops the last segment,
`.` is dropped, and a trailing `.` or `..` leaves a trailing empty segment. -/
def segsFold (acc : List (List Char)) : List (List Char) → List (List Char)
  | [] => acc
  | [s] =>
    if s = ['.', '.'] then acc.dropLast ++ [[]]
    else if s = ['.'] then acc ++ [[]]
    else acc ++ [s]
  | s :: rest =>
    if s = ['.', '.'] then segsFold acc.dropLast rest
    else if s = ['.'] then segsFold acc rest
    else segsFold (acc ++ [s]) rest

/-- Parse query and fragment, given the already-parsed leading components. -/
def parseQF (scheme host : List Char) (path : List (List Char)) : List Char → Option Url
  | [] => some ⟨scheme, host, path, none, none⟩
  | c :: r2 =>
    if c = '?' then
      match dropW isQChar r2 with
      | [] => some ⟨scheme, host, path, some (takeW isQChar r2), none⟩
      | _ :: fr => some ⟨scheme, host, path, some (takeW isQChar r2), some fr⟩
    else if c = '#' then some ⟨scheme, host, path, none, some r2⟩
    else none

/-- Parse the path, query and fragment following the authority. -/
def parseAfterHost (scheme host : List Char) : List Char → Option Url
  | [] => some ⟨scheme, host, [[]], none, none⟩
  | c :: pr =>
    if c = '/' then
      parseQF scheme host (segsFold [] (splitChar '/' (takeW isPathChar pr))) (dropW isPathChar pr)
    else parseQF scheme host [[]] (c :: pr)

/-- Parse the authority and everything after it. -/
def parseAuthority (scheme : List Char) (rest : List Char) : Option Url :=
  let host := lowerChars (takeW isHostChar rest)
  if hostOk host then parseAfterHost scheme host (dropW isHostChar rest) else none

/-- Model of `Url::parse`: accepts absolute hierarchical URLs only. -/
def parseUrl (s : List Char) : Option Url :=
  let sr := takeW Char.isAlpha s
  if sr.isEmpty then none
  else
    match dropW Char.isAlpha s with
    | c1 :: c2 :: c3 :: rest =>
      if c1 = ':' ∧ c2 = '/' ∧ c3 = '/' then parseAuthority (lowerChars sr) rest else none
    | _ => none

/-- Serialized path: one `/` before every segment. -/
def pathChars (p : List (List Char)) : List Char := (p.map (fun s => '/' :: s)).flatten

/-- Serialized query: `?` plus the query, or nothing. -/
def qfQ : Option (List Char) → List Char
  | none => []
  | some q => '?' :: q

/-- Serialized fragment: `#` plus the fragment, or nothing. -/
def qfF : Option (List Char) → List Char
  | none => []
  | some f => '#' :: f

/-- Serialization of a URL (model of `Url::to_string`). -/
def Url.toChars (u : Url) : List Char :=
  u.scheme ++ ':' :: '/' :: '/' :: u.host ++ pathChars u.path ++ qfQ u.query ++ qfF u.fragment

/-- Serialization of a URL as a `String`. -/
def Url.render (u : Url) : String := String.mk u.toChars

/-- A decimal number of at most three digits with value below 256. -/
def ipv4Part (s : List Char) : Bool :=
  !s.isEmpty && s.all Char.isDigit &&
    decide (s.foldl (fun n c => n * 10 + (c.toNat - 48)) 0 ≤ 255)

/-- Dotted-quad IPv4 literal test (model of the host classification that
makes `Url::domain` return `None` for IP-address hosts). -/
def isIpv4Chars (h : List Char) : Bool :=
  match splitChar '.' h with
  | [a, b, c, d] => ipv4Part a && ipv4Part b && ipv4Part c && ipv4Part d
  | _ => false

/-- Model of `Url::domain`: the host, unless it is an IP-address literal. -/
def Url.domain (u : Url) : Option (List Char) :=
  if isIpv4Chars u.host then none else some u.host

/-- Model of `Url::join` (`base.join(href)`): standard relative-reference
resolution against a parsed base. -/
def Url.join (base : Url) (href : List Char) : Option Url :=
  match href with
  | [] => some { base with fragment := none }
  | c :: rest =>
    if c = '/' then
      match rest with
      | c2 :: rest2 =>
        if c2 = '/' then parseAuthority base.scheme rest2
        else parseAfterHost base.scheme base.host (c :: rest)
      | [] => parseAfterHost base.scheme base.host (c :: rest)
    else if c = '?' then parseQF base.scheme base.host base.path (c :: rest)
    else if c = '#' then some { base with fragment := some rest }
    else
      let noFrag := takeW isQChar (c :: rest)
      let fragRest := dropW isQChar (c :: rest)
      let pPart := takeW isPathChar noFrag
      let qRest := dropW isPathChar noFrag
      some ⟨base.scheme, base.host, segsFold base.path.dropLast (splitChar '/' pPart),
        (match qRest with | [] => none | _ :: q => some q),
        (match fragRest with | [] => none | _ :: f => some f)⟩

/-- Model of `Crawler::normalize_url`: try `href` as an absolute URL first,
otherwise resolve it against `base_url`; `None` models the dropped candidate. -/
def normalize_url (base_url href : String) : Option String :=
  match parseUrl href.data with
  | some u => some u.render
  | none => (parseUrl base_url.data).bind (fun base => (base.join href.data).map Url.render)

/-- Model of `Crawler::is_same_domain`. -/
def is_same_domain (base_domain url : String) : Bool :=
  match parseUrl url.data with
  | some parsed_url => parsed_url.domain == some base_domain.data
  | none => false

/-- Model of the `base_domain` computation in `Crawler::new`; `none` models
the `expect` panics on an invalid start URL or a missing domain. -/
def crawlerBaseDomain (start_url : String) : Option String :=
  (parseUrl start_url.data).bind (fun u => u.domain.map String.mk)

/-- One HTML attribute. -/
structure HtmlAttr where
  name : List Char
  value : List Char
deriving Repr, DecidableEq

/-- One HTML start tag. -/
structure HtmlTag where
  name : List Char
  attrs : List HtmlAttr
deriving Repr, DecidableEq

/-- Whitespace inside a tag. -/
def isSpaceC (c : Char) : Bool := c == ' ' || c == '\n' || c == '\t' || c == '\r'

/-- Characters that may form an attribute name. -/
def isAttrNameChar (c : Char) : Bool :=
  !(isSpaceC c) && !(c == '=') && !(c == '>') && !(c == '/')

/-- Characters of an unquoted attribute value. -/
def isUnquotedValChar (c : Char) : Bool := !(isSpaceC c) && !(c == '>')

/-- Parse the attribute list of a start tag, up to and past the closing `>`;
fuel bounds the recursion. -/
def parseAttrs : Nat → List Char → List HtmlAttr × List Char
  | 0, l => ([], l)
  | fuel + 1, l =>
    match l with
    | [] => ([], [])
    | '>' :: rest => ([], rest)
    | '/' :: rest => parseAttrs fuel rest
    | c :: rest =>
      if isSpaceC c then parseAttrs fuel rest
      else
        let aname := lowerChars (takeW isAttrNameChar (c :: rest))
        match dropW isAttrNameChar (c :: rest) with
        | '=' :: r2 =>
          match r2 with
          | q :: r3 =>
            if q == dqc || q == sqc then
              let v := takeW (fun c2 => !(c2 == q)) r3
              let r4 := dropW (fun c2 => !(c2 == q)) r3
              let (as2, rest2) := parseAttrs fuel (r4.drop 1)
              (⟨aname, v⟩ :: as2, rest2)
            else
              let v := takeW isUnquotedValChar r2
              let (as2, rest2) := parseAttrs fuel (dropW isUnquotedValChar r2)
              (⟨aname, v⟩ :: as2, rest2)
          | [] => ([⟨aname, []⟩], [])
        | r1 =>
          let (as2, rest2) := parseAttrs fuel r1
          (⟨aname, []⟩ :: as2, rest2)

/-- Skip a comment body, past the closing sequence. -/
def skipComment : Nat → List Char → List Char
  | 0, l => l
  | fuel + 1, l =>
    match l with
    | '-' :: '-' :: '>' :: rest => rest
    | _ :: rest => skipComment fuel rest
    | [] => []

/-- Enumerate the start tags of a document in document order, skipping
comments and end tags (model of the parsed document tree as seen through
`document.select`). -/
def tokenizeAux : Nat → List Char → List HtmlTag
  | 0, _ => []
  | fuel + 1, l =>
    match l with
    | [] => []
    | '<' :: '!' :: '-' :: '-' :: rest => tokenizeAux fuel (skipComment rest.length rest)
    | '<' :: '/' :: rest => tokenizeAux fuel ((dropW (fun c => !(c == '>')) rest).drop 1)
    | '<' :: rest =>
      let tname := lowerChars (takeW Char.isAlpha rest)
      if tname.isEmpty then tokenizeAux fuel rest
      else
        let r1 := dropW Char.isAlpha rest
        let (attrs, r2) := parseAttrs (r1.length + 1) r1
        ⟨tname, attrs⟩ :: tokenizeAux fuel r2
    | _ :: rest => tokenizeAux fuel rest

/-- Tokenize a whole document. -/
def tokenizeHtml (html : List Char) : List HtmlTag := tokenizeAux (html.length + 1) html

/-- The tags selected by `Selector::parse("a, link, script, img, source")`. -/
def targetTags : List (List Char) :=
  [String.data "a", String.data "link", String.data "script",
   String.data "img", String.data "source"]

/-- First attribute with the given (lowercase) name, if any. -/
def getAttrVal (attrs : List HtmlAttr) (aname : List Char) : Option (List Char) :=
  match attrs.find? (fun a2 => a2.name == aname) with
  | some a2 => some a2.value
  | none => none

/-- Model of `Crawler::parse_html_with_scraper`: for every selected element,
read `href`, falling back to `src`, and normalize. -/
def parse_html_with_scraper (base_url html : String) : List String :=
  (tokenizeHtml html.data).filterMap (fun tag =>
    if targetTags.contains tag.name then
      match (getAttrVal tag.attrs (String.data "href")).orElse
          (fun _ => getAttrVal tag.attrs (String.data "src")) with
      | some href => normalize_url base_url (String.mk href)
      | none => none
    else none)

/-- Either quote character. -/
def isQuoteC (c : Char) : Bool := c == dqc || c == sqc

/-- Case-insensitively strip a (lowercase) pattern from the front. -/
def stripCI : List Char → List Char → Option (List Char)
  | [], l => some l
  | _ :: _, [] => none
  | p :: ps, c :: cs => if lowerChar c == p then stripCI ps cs else none

/-- One attempted match of the link pattern at the head of the input:
`href` or `src` (case-insensitive), `=`, a quote, a nonempty run of
non-quote characters (the capture), and a closing quote. -/
def tryMatchLink (l : List Char) : Option (List Char × List Char) :=
  match (stripCI (String.data "href=") l).orElse (fun _ => stripCI (String.data "src=") l) with
  | none => none
  | some r1 =>
    match r1 with
    | [] => none
    | q :: r2 =>
      if isQuoteC q then
        let cap := takeW (fun c => !(isQuoteC c)) r2
        match dropW (fun c => !(isQuoteC c)) r2 with
        | _ :: rest => if cap.isEmpty then none else some (cap, rest)
        | [] => none
      else none

/-- Leftmost, non-overlapping matches of the link pattern (model of
`Regex::captures_iter`): captured attribute values in scan order. -/
def regexCaptures : Nat → List Char → List (List Char)
  | 0, _ => []
  | fuel + 1, l =>
    match tryMatchLink l with
    | some (cap, rest) => cap :: regexCaptures fuel rest
    | none =>
      match l with
      | [] => []
      | _ :: rest => regexCaptures fuel rest

/-- Model of `Crawler::parse_html_with_regex`: scan the raw markup and
normalize every captured value. -/
def parse_html_with_regex (base_url html : String) : List String :=
  (regexCaptures (html.data.length + 1) html.data).filterMap
    (fun cap => normalize_url base_url (String.mk cap))

/-- Model of `Crawler::parse_html`: structural results followed by pattern
results; totality models the `Ok`-only `Result`. -/
def parse_html (base_url html : String) : List String :=
  parse_html_with_scraper base_url html ++ parse_html_with_regex base_url html

/-- The per-URL outcome record (`enum CrawlResult`). -/
inductive CrawlResult where
  | Html (url : String) (links : List String)
  | File (url : String) (content_type : String) (content : List UInt8)
  | Error (url : String) (error : String)
deriving Repr, DecidableEq

/-- The URL a result is about. -/
def CrawlResult.url : CrawlResult → String
  | .Html u _ => u
  | .File u _ _ => u
  | .Error u _ => u

/-- A successful HTTP response: the declared `content-type` header (absent
or unreadable modelled as `none`), and the two fallible body reads
(`response.text()` and `response.bytes()`). -/
structure Response where
  contentType : Option String
  text : Except String String
  bytes : Except String (List UInt8)

/-- The HTTP transport: `client.get(url).send()`. -/
def Fetch := String → Except String Response

/-- The mutable crawler state inside `crawl`: frontier queue (front at the
head), visited set (as the list of insertions, newest first) and the
accumulated results. -/
structure CrawlState where
  to_visit : List String
  visited : List String
  results : List CrawlResult
deriving Repr, DecidableEq

/-- Outcome of running the loop: the queue drained (`Ok(results)` with the
final state), an error propagated by `?` out of `crawl`, or fuel ran out
(an artifact of the embedding, never reached from a sufficient budget). -/
inductive CrawlOutcome where
  | done (st : CrawlState)
  | aborted (e : String)
  | outOfFuel (st : CrawlState)
deriving DecidableEq

/-- Whether the first list is a prefix of the second. -/
def listStarts : List Char → List Char → Bool
  | [], _ => true
  | _ :: _, [] => false
  | p :: ps, c :: cs => p == c && listStarts ps cs

/-- Model of `str::starts_with`: case-sensitive literal prefix test. -/
def strStarts (s pat : String) : Bool := listStarts pat.data s.data

/-- The `Ok(response)` arm of the match in `crawl`: classify by declared
content type, read the body, extract and enqueue links on the HTML path.
`visited2` is the visited set after the insertion of `url`. -/
def handleResponse (bd url : String) (rest visited2 : List String)
    (results : List CrawlResult) (resp : Response) : Except String CrawlState :=
  let content_type := resp.contentType.getD ""
  if strStarts content_type "text/html" then
    match resp.text with
    | .error e => .error e
    | .ok body =>
      let links := parse_html url body
      let pushed := links.filter (fun l => !visited2.contains l && is_same_domain bd l)
      .ok ⟨rest ++ pushed, visited2, results ++ [.Html url links]⟩
  else
    match resp.bytes with
    | .error e => .error e
    | .ok bytes => .ok ⟨rest, visited2, results ++ [.File url content_type bytes]⟩

/-- One iteration of the crawl loop on a popped `url`: skip it when already
visited (`continue`), record a send failure as an `Error` result, or hand a
response over to `handleResponse`; an `error` is a `?` propagation. -/
def crawlIter (fetch : Fetch) (bd : String) (visited : List String)
    (results : List CrawlResult) (url : String) (rest : List String) :
    Except String CrawlState :=
  if visited.contains url then .ok ⟨rest, visited, results⟩
  else
    match fetch url with
    | .error e => .ok ⟨rest, url :: visited, results ++ [.Error url e]⟩
    | .ok resp => handleResponse bd url rest (url :: visited) results resp

/-- The crawl loop (`while let Some(url) = self.to_visit.pop_front()`). -/
def crawlLoop (fetch : Fetch) (bd : String) : Nat → CrawlState → CrawlOutcome
  | 0, st => .outOfFuel st
  | fuel + 1, st =>
    match st.to_visit with
    | [] => .done st
    | url :: rest =>
      match crawlIter fetch bd st.visited st.results url rest with
      | .error e => .aborted e
      | .ok st2 => crawlLoop fetch bd fuel st2

/-- Construction (`Crawler::new`) followed by the loop: `none` models the
construction panics; the initial state holds the seed alone. -/
def crawl (fetch : Fetch) (start_url : String) (fuel : Nat) : Option CrawlOutcome :=
  (crawlerBaseDomain start_url).map
    (fun bd => crawlLoop fetch bd fuel ⟨[start_url], [], []⟩)

/-- The links a response contributes to the frontier before filtering:
extraction output on the HTML path, nothing otherwise. -/
def respLinks (url : String) (resp : Response) : List String :=
  if strStarts (resp.contentType.getD "") "text/html" then
    match resp.text with
    | .ok body => parse_html url body
    | .error _ => []
  else []

/-- The link function of the crawl graph induced by a fetch oracle. -/
def pageLinks (fetch : Fetch) (u : String) : List String :=
  match fetch u with
  | .ok resp => respLinks u resp
  | .error _ => []

/-- Holds when the loop drained the frontier and produced exactly one result
per distinct processed URL (the visited list records exactly the URLs that
were popped and not skipped, newest first). -/
def doneWithCount : CrawlOutcome → Prop
  | .done st => st.results.length = st.visited.length ∧ st.visited.Nodup
  | _ => False

/-- Modelled from the spec: the breadth-first visitation order of section
4.5/4.6 — a FIFO frontier seeded with one URL; each step pops the front,
skips it if already seen, and otherwise records it and enqueues its
extracted links in order, keeping those that are unseen and in scope. -/
def bfsOrder (links : String → List String) (inScope : String → Bool) :
    Nat → List String → List String → List String
  | 0, _, _ => []
  | fuel + 1, queue, seen =>
    match queue with
    | [] => []
    | u :: rest =>
      if seen.contains u then bfsOrder links inScope fuel rest seen
      else
        u :: bfsOrder links inScope fuel
          (rest ++ (links u).filter (fun l => !((u :: seen).contains l) && inScope l))
          (u :: seen)

/-- A path segment as produced by parsing: free of structural characters
and not a dot segment. -/
def goodSeg (s : List Char) : Prop :=
  (∀ c ∈ s, c ≠ '/' ∧ c ≠ '?' ∧ c ≠ '#') ∧ s ≠ ['.'] ∧ s ≠ ['.', '.']

/-- The canonical form shared by every URL the model produces: lowercase
alphabetic scheme, lowercase structural-character-free host, nonempty
dot-free path, and a hash-free query. -/
structure UrlCanon (u : Url) : Prop where
  scheme_ne : u.scheme ≠ []
  scheme_alpha : ∀ c ∈ u.scheme, c.isAlpha = true
  scheme_lower : lowerChars u.scheme = u.scheme
  host_ok : hostOk u.host = true
  host_lower : lowerChars u.host = u.host
  path_ne : u.path ≠ []
  path_good : ∀ s ∈ u.path, goodSeg s
  query_ok : ∀ q, u.query = some q → ∀ c ∈ q, c ≠ '#'

/-- Whether an `Except` value is a success. -/
def exOk {ε α : Type} : Except ε α → Bool
  | .ok _ => true
  | .error _ => false

/-- Every response for a URL in `R` has readable text and byte bodies. -/
def readsOkOn (fetch : Fetch) (R : List String) : Bool :=
  R.all (fun u =>
    match fetch u with
    | .ok r => exOk r.text && exOk r.bytes
    | .error _ => true)

/-- Closure: `R` is closed under following in-scope extracted links. -/
def closureOK (fetch : Fetch) (bd : String) (R : List String) : Bool :=
  R.all (fun u => (pageLinks fetch u).all (fun l => !is_same_domain bd l || R.contains l))

/-- Every page in `R` yields at most `B` extracted links. -/
def boundOK (fetch : Fetch) (R : List String) (B : Nat) : Bool :=
  R.all (fun u => decide ((pageLinks fetch u).length ≤ B))

/-- The loop invariant tying results, visited set, frontier and domain scope
together: result URLs are distinct and recorded in the visited list, one
result exists per visited entry, and everything except possibly the seed is
in scope. -/
def StInv (bd seed : String) (st : CrawlState) : Prop :=
  (st.results.map CrawlResult.url).Nodup ∧
  (∀ r ∈ st.results, CrawlResult.url r ∈ st.visited) ∧
  st.results.length = st.visited.length ∧
  st.visited.Nodup ∧
  (∀ r ∈ st.results, CrawlResult.url r = seed ∨ is_same_domain bd (CrawlResult.url r) = true) ∧
  (∀ u ∈ st.to_visit, u = seed ∨ is_same_domain bd u = true)

/-- The termination measure: remaining-to-visit budget weighted by the link
bound, plus the frontier length. -/
def crawlMeasure (R : List String) (B : Nat) (st : CrawlState) : Nat :=
  (R.filter (fun u => !st.visited.contains u)).length * (B + 1) + st.to_visit.length

/-- A double quote as a string. -/
def dqS : String := String.mk [dqc]

/-- A single quote as a string. -/
def sqS : String := String.mk [sqc]

/-- A transport that always fails at send time. -/
def fetchDown : Fetch := fun _ => .error "connection refused"

/-- A transport whose response body cannot be read. -/
def fetchBadBody : Fetch :=
  fun _ => .ok ⟨some "text/html", .error "body read failed", .ok []⟩

/-- The single page of the two-URL test site. -/
def pageBody : String := "<a href=" ++ dqS ++ "/a" ++ dqS ++ ">"

/-- A two-URL site: an HTML root linking to one image. -/
def fetchSite : Fetch := fun u =>
  if u == "https://w.com/" then .ok ⟨some "text/html", .ok pageBody, .ok []⟩
  else if u == "https://w.com/a" then .ok ⟨some "image/png", .ok "", .ok [7]⟩
  else .error "unreachable"

/-- The URL universe of the test site. -/
def siteR : List String := ["https://w.com/", "https://w.com/a"]

/-- Extraction output for the root page (both strategies find the link). -/
def siteLinks : List String := ["https://w.com/a", "https://w.com/a"]

/-- The final state of crawling the test site. -/
def stSite : CrawlState :=
  ⟨[], ["https://w.com/a", "https://w.com/"],
   [.Html "https://w.com/" siteLinks, .File "https://w.com/a" "image/png" [7]]⟩

/-- HTML with a structurally visible link and a single-quoted link inside a
comment, visible only to the pattern strategy. -/
def dualHtml : String :=
  "<a href=" ++ dqS ++ "/a" ++ dqS ++ "><!-- src=" ++ sqS ++ "/b" ++ sqS ++ " -->"

/-- The root page of the aborting test site: two same-domain links. -/
def abortBody : String :=
  "<a href=" ++ dqS ++ "/bad" ++ dqS ++ "><a href=" ++ dqS ++ "/c" ++ dqS ++ ">"

/-- A finite three-URL same-domain site whose page `/bad` has an unreadable
response body: the root links to `/bad` and `/c`, `/bad` declares HTML but
its body read fails, and `/c` is an ordinary image. -/
def fetchAbortSite : Fetch := fun u =>
  if u == "https://w.com/" then .ok ⟨some "text/html", .ok abortBody, .ok []⟩
  else if u == "https://w.com/bad" then
    .ok ⟨some "text/html", .error "body read failed", .ok []⟩
  else if u == "https://w.com/c" then .ok ⟨some "image/png", .ok "", .ok [7]⟩
  else .error "unreachable"

/-- The URL universe of the aborting test site. -/
def abortR : List String := ["https://w.com/", "https://w.com/bad", "https://w.com/c"]

/-! ## Theorems -/

theorem lowerChar_idem (c : Char) : lowerChar (lowerChar c) = lowerChar c := by
  unfold lowerChar
  cases hf : upperLower.find? (fun p => p.fst == c) with
  | none => simp [hf]
  | some p =>
    have hmem : p ∈ upperLower := List.mem_of_find?_eq_some hf
    have hall : upperLower.all
        (fun q => (upperLower.find? (fun r => r.fst == q.snd)).isNone) = true := by decide
    have := (List.all_eq_true.mp hall) p hmem
    cases hg : upperLower.find? (fun r => r.fst == p.snd) with
    | none => simp
    | some r => simp [hg] at this

theorem lowerChars_idem (l : List Char) : lowerChars (lowerChars l) = lowerChars l := by
  induction l with
  | nil => rfl
  | cons c cs ih =>
    simp only [lowerChars, List.map_cons] at ih ⊢
    rw [lowerChar_idem, ih]

theorem lowerChar_isAlpha {c : Char} (h : c.isAlpha = true) : (lowerChar c).isAlpha = true := by
  unfold lowerChar
  cases hf : upperLower.find? (fun p => p.fst == c) with
  | none => simpa using h
  | some p =>
    have hmem : p ∈ upperLower := List.mem_of_find?_eq_some hf
    have hall : upperLower.all (fun q => q.snd.isAlpha) = true := by decide
    simpa using (List.all_eq_true.mp hall) p hmem

theorem takeW_append (p : Char → Bool) (a b : List Char) (ha : ∀ c ∈ a, p c = true) :
    takeW p (a ++ b) = a ++ takeW p b := by
  induction a with
  | nil => rfl
  | cons c cs ih =>
    simp only [List.cons_append, takeW, ha c (by simp), if_true]
    exact congrArg (List.cons c) (ih (fun c hc => ha c (by simp [hc])))

theorem dropW_append (p : Char → Bool) (a b : List Char) (ha : ∀ c ∈ a, p c = true) :
    dropW p (a ++ b) = dropW p b := by
  induction a with
  | nil => rfl
  | cons c cs ih =>
    simp only [List.cons_append, dropW, ha c (by simp), if_true]
    exact ih (fun c hc => ha c (by simp [hc]))

theorem takeW_cons_false (p : Char → Bool) (c : Char) (cs : List Char) (h : p c = false) :
    takeW p (c :: cs) = [] := by
  simp [takeW, h]

theorem dropW_cons_false (p : Char → Bool) (c : Char) (cs : List Char) (h : p c = false) :
    dropW p (c :: cs) = c :: cs := by
  simp [dropW, h]

theorem mem_takeW {p : Char → Bool} {c : Char} : ∀ {l : List Char}, c ∈ takeW p l → p c = true ∧ c ∈ l
  | [], h => by simp [takeW] at h
  | d :: ds, h => by
    by_cases hd : p d
    · simp only [takeW, hd, if_true, List.mem_cons] at h
      rcases h with h | h
      · subst h; exact ⟨hd, by simp⟩
      · have := mem_takeW (l := ds) h
        exact ⟨this.1, by simp [this.2]⟩
    · simp [takeW, hd] at h

theorem mem_dropW {p : Char → Bool} {c : Char} : ∀ {l : List Char}, c ∈ dropW p l → c ∈ l
  | [], h => by simp [dropW] at h
  | d :: ds, h => by
    by_cases hd : p d
    · simp only [dropW, hd, if_true] at h
      have := mem_dropW (l := ds) h
      simp [this]
    · simpa [dropW, hd] using h

theorem splitChar_ne_nil (sep : Char) : ∀ l : List Char, splitChar sep l ≠ []
  | [] => by simp [splitChar]
  | c :: cs => by
    simp only [splitChar]
    cases h : splitChar sep cs with
    | nil => simp
    | cons s rest => by_cases hc : c = sep <;> simp [hc]

theorem mem_splitChar {sep : Char} :
    ∀ {l : List Char} {s : List Char}, s ∈ splitChar sep l → ∀ c ∈ s, c ∈ l ∧ c ≠ sep
  | [], s, hs => by
    intro c hc
    simp only [splitChar, List.mem_singleton] at hs
    subst hs; simp at hc
  | d :: ds, s, hs => by
    intro c hc
    simp only [splitChar] at hs
    revert hs
    cases hsp : splitChar sep ds with
    | nil => exact absurd hsp (splitChar_ne_nil sep ds)
    | cons s0 rest0 =>
      intro hs0
      have hs : s ∈ (if d = sep then [] :: s0 :: rest0 else (d :: s0) :: rest0) := hs0
      by_cases hd : d = sep
      · rw [if_pos hd] at hs
        rcases List.mem_cons.mp hs with h | h
        · subst h; simp at hc
        · have := mem_splitChar (l := ds) (s := s) (by rw [hsp]; exact h) c hc
          exact ⟨List.mem_cons_of_mem d this.1, this.2⟩
      · rw [if_neg hd] at hs
        rcases List.mem_cons.mp hs with h | h
        · subst h
          rcases List.mem_cons.mp hc with h2 | h2
          · subst h2; exact ⟨by simp, hd⟩
          · have := mem_splitChar (l := ds) (s := s0)
              (by rw [hsp]; exact List.mem_cons_self s0 rest0) c h2
            exact ⟨List.mem_cons_of_mem d this.1, this.2⟩
        · have := mem_splitChar (l := ds) (s := s)
            (by rw [hsp]; exact List.mem_cons_of_mem s0 h) c hc
          exact ⟨List.mem_cons_of_mem d this.1, this.2⟩

theorem splitChar_no_sep {sep : Char} : ∀ {l : List Char}, (∀ c ∈ l, c ≠ sep) → splitChar sep l = [l]
  | [], _ => by simp [splitChar]
  | c :: cs, h => by
    have ih := splitChar_no_sep (l := cs) (fun d hd => h d (by simp [hd]))
    simp only [splitChar, ih]
    rw [if_neg (h c (by simp))]

theorem splitChar_append_sep {sep : Char} :
    ∀ {s : List Char} (tail : List Char), (∀ c ∈ s, c ≠ sep) →
      splitChar sep (s ++ sep :: tail) = s :: splitChar sep tail
  | [], tail, _ => by
    simp only [List.nil_append, splitChar]
    cases h : splitChar sep tail with
    | nil => exact absurd h (splitChar_ne_nil sep tail)
    | cons s0 rest0 => simp
  | c :: cs, tail, h => by
    have ih := splitChar_append_sep (s := cs) tail (fun d hd => h d (by simp [hd]))
    have key : splitChar sep ((c :: cs) ++ sep :: tail) =
        match splitChar sep (cs ++ sep :: tail) with
        | [] => [[]]
        | s :: rest => if c = sep then [] :: s :: rest else (c :: s) :: rest := rfl
    rw [key, ih]
    simp [h c (by simp)]

theorem goodSeg_nil : goodSeg [] := by
  constructor
  · intro c hc; simp at hc
  · constructor <;> simp

theorem segsFold_ne_nil : ∀ (segs : List (List Char)) (acc), segs ≠ [] → segsFold acc segs ≠ []
  | [], _, h => absurd rfl h
  | [s], acc, _ => by
    simp only [segsFold]
    by_cases h1 : s = ['.', '.']
    · rw [if_pos h1]; simp
    · rw [if_neg h1]
      by_cases h2 : s = ['.']
      · rw [if_pos h2]; simp
      · rw [if_neg h2]; simp
  | s :: s2 :: rest, acc, _ => by
    simp only [segsFold]
    by_cases h1 : s = ['.', '.']
    · rw [if_pos h1]; exact segsFold_ne_nil (s2 :: rest) acc.dropLast (by simp)
    · rw [if_neg h1]
      by_cases h2 : s = ['.']
      · rw [if_pos h2]; exact segsFold_ne_nil (s2 :: rest) acc (by simp)
      · rw [if_neg h2]; exact segsFold_ne_nil (s2 :: rest) (acc ++ [s]) (by simp)

theorem segsFold_id : ∀ (segs : List (List Char)) (acc), segs ≠ [] →
    (∀ s ∈ segs, s ≠ ['.'] ∧ s ≠ ['.', '.']) → segsFold acc segs = acc ++ segs
  | [], _, h, _ => absurd rfl h
  | [s], acc, _, hd => by
    have := hd s (by simp)
    simp only [segsFold]
    rw [if_neg this.2, if_neg this.1]
  | s :: s2 :: rest, acc, _, hd => by
    have hs := hd s (by simp)
    have ih := segsFold_id (s2 :: rest) (acc ++ [s]) (by simp)
      (fun t ht => hd t (List.mem_cons_of_mem s ht))
    simp only [segsFold]
    rw [if_neg hs.2, if_neg hs.1, ih]
    simp

theorem segsFold_good : ∀ (segs : List (List Char)) (acc), (∀ s ∈ acc, goodSeg s) →
    (∀ s ∈ segs, ∀ c ∈ s, c ≠ '/' ∧ c ≠ '?' ∧ c ≠ '#') →
    ∀ s ∈ segsFold acc segs, goodSeg s
  | [], acc, hacc, _ => hacc
  | [s], acc, hacc, hsegs => by
    have hdl : ∀ t ∈ acc.dropLast, goodSeg t :=
      fun t ht => hacc t ((List.dropLast_sublist acc).subset ht)
    simp only [segsFold]
    by_cases h1 : s = ['.', '.']
    · rw [if_pos h1]
      intro t ht
      rcases List.mem_append.mp ht with h | h
      · exact hdl t h
      · simp at h; subst h; exact goodSeg_nil
    · rw [if_neg h1]
      by_cases h2 : s = ['.']
      · rw [if_pos h2]
        intro t ht
        rcases List.mem_append.mp ht with h | h
        · exact hacc t h
        · simp at h; subst h; exact goodSeg_nil
      · rw [if_neg h2]
        intro t ht
        rcases List.mem_append.mp ht with h | h
        · exact hacc t h
        · simp at h; subst h
          exact ⟨hsegs t (by simp), h2, h1⟩
  | s :: s2 :: rest, acc, hacc, hsegs => by
    have hrest : ∀ t ∈ s2 :: rest, ∀ c ∈ t, c ≠ '/' ∧ c ≠ '?' ∧ c ≠ '#' :=
      fun t ht => hsegs t (List.mem_cons_of_mem s ht)
    simp only [segsFold]
    by_cases h1 : s = ['.', '.']
    · rw [if_pos h1]
      exact segsFold_good (s2 :: rest) acc.dropLast
        (fun t ht => hacc t ((List.dropLast_sublist acc).subset ht)) hrest
    · rw [if_neg h1]
      by_cases h2 : s = ['.']
      · rw [if_pos h2]; exact segsFold_good (s2 :: rest) acc hacc hrest
      · rw [if_neg h2]
        refine segsFold_good (s2 :: rest) (acc ++ [s]) ?_ hrest
        intro t ht
        rcases List.mem_append.mp ht with h | h
        · exact hacc t h
        · simp at h; subst h
          exact ⟨hsegs t (by simp), h2, h1⟩

theorem hostOk_mem {h : List Char} (hh : hostOk h = true) : ∀ c ∈ h, badHostChar c = false := by
  intro c hc
  have := (Bool.and_eq_true _ _).mp hh
  have h2 := List.all_eq_true.mp this.2 c hc
  simpa using h2

theorem isHostChar_of_bad {c : Char} (h : badHostChar c = false) : isHostChar c = true := by
  simp only [badHostChar, Bool.or_eq_false_iff, beq_eq_false_iff_ne] at h
  simp [isHostChar]
  tauto

theorem isPathChar_iff {c : Char} : isPathChar c = true ↔ c ≠ '?' ∧ c ≠ '#' := by
  simp [isPathChar]

theorem isQChar_iff {c : Char} : isQChar c = true ↔ c ≠ '#' := by
  simp [isQChar]

theorem parseQF_fields {sc h : List Char} {p : List (List Char)} :
    ∀ {r : List Char} {u : Url}, parseQF sc h p r = some u →
      u.scheme = sc ∧ u.host = h ∧ u.path = p ∧
        (∀ q, u.query = some q → ∀ c ∈ q, c ≠ '#') := by
  intro r u hu
  cases r with
  | nil =>
    simp only [parseQF] at hu
    obtain rfl := Option.some.inj hu
    refine ⟨rfl, rfl, rfl, ?_⟩
    intro q hq; exact absurd hq (by simp)
  | cons c r2 =>
    simp only [parseQF] at hu
    by_cases hq : c = '?'
    · rw [if_pos hq] at hu
      revert hu
      cases hd : dropW isQChar r2 with
      | nil =>
        intro hu
        obtain rfl := Option.some.inj hu
        refine ⟨rfl, rfl, rfl, ?_⟩
        intro q hq2 c2 hc2
        obtain rfl := Option.some.inj hq2
        exact ((isQChar_iff).mp (mem_takeW hc2).1)
      | cons x fr =>
        intro hu
        obtain rfl := Option.some.inj hu
        refine ⟨rfl, rfl, rfl, ?_⟩
        intro q hq2 c2 hc2
        obtain rfl := Option.some.inj hq2
        exact ((isQChar_iff).mp (mem_takeW hc2).1)
    · rw [if_neg hq] at hu
      by_cases hh : c = '#'
      · rw [if_pos hh] at hu
        obtain rfl := Option.some.inj hu
        refine ⟨rfl, rfl, rfl, ?_⟩
        intro q hq2; exact absurd hq2 (by simp)
      · rw [if_neg hh] at hu
        exact absurd hu (by simp)

theorem parseAfterHost_fields {sc h : List Char} :
    ∀ {r : List Char} {u : Url}, parseAfterHost sc h r = some u →
      u.scheme = sc ∧ u.host = h ∧ (u.path ≠ [] ∧ ∀ s ∈ u.path, goodSeg s) ∧
        (∀ q, u.query = some q → ∀ c ∈ q, c ≠ '#') := by
  intro r u hu
  cases r with
  | nil =>
    simp only [parseAfterHost] at hu
    obtain rfl := Option.some.inj hu
    refine ⟨rfl, rfl, ⟨by simp, ?_⟩, ?_⟩
    · intro s hs; simp at hs; subst hs; exact goodSeg_nil
    · intro q hq; exact absurd hq (by simp)
  | cons c pr =>
    simp only [parseAfterHost] at hu
    by_cases hc : c = '/'
    · rw [if_pos hc] at hu
      obtain ⟨h1, h2, h3, h4⟩ := parseQF_fields hu
      refine ⟨h1, h2, ⟨?_, ?_⟩, h4⟩
      · rw [h3]
        exact segsFold_ne_nil _ [] (splitChar_ne_nil _ _)
      · rw [h3]
        refine segsFold_good _ [] (by intro s hs; simp at hs) ?_
        intro s hs c2 hc2
        have hm := mem_splitChar hs c2 hc2
        have hp := (mem_takeW hm.1).1
        exact ⟨hm.2, (isPathChar_iff.mp hp).1, (isPathChar_iff.mp hp).2⟩
    · rw [if_neg hc] at hu
      obtain ⟨h1, h2, h3, h4⟩ := parseQF_fields hu
      refine ⟨h1, h2, ⟨?_, ?_⟩, h4⟩
      · rw [h3]; simp
      · rw [h3]
        intro s hs; simp at hs; subst hs; exact goodSeg_nil

theorem parseAfterHost_canon {sc h r : List Char} {u : Url}
    (hsc1 : sc ≠ []) (hsc2 : ∀ c ∈ sc, c.isAlpha = true) (hsc3 : lowerChars sc = sc)
    (hh1 : hostOk h = true) (hh2 : lowerChars h = h)
    (hu : parseAfterHost sc h r = some u) : UrlCanon u := by
  obtain ⟨h1, h2, h3, h4⟩ := parseAfterHost_fields hu
  exact ⟨by rw [h1]; exact hsc1, by rw [h1]; exact hsc2, by rw [h1]; exact hsc3,
    by rw [h2]; exact hh1, by rw [h2]; exact hh2, h3.1, h3.2, h4⟩

theorem parseAuthority_canon {sc rest : List Char} {u : Url}
    (hsc1 : sc ≠ []) (hsc2 : ∀ c ∈ sc, c.isAlpha = true) (hsc3 : lowerChars sc = sc)
    (hu : parseAuthority sc rest = some u) : UrlCanon u := by
  simp only [parseAuthority] at hu
  by_cases hh : hostOk (lowerChars (takeW isHostChar rest)) = true
  · rw [if_pos hh] at hu
    exact parseAfterHost_canon hsc1 hsc2 hsc3 hh (lowerChars_idem _) hu
  · rw [if_neg hh] at hu
    exact absurd hu (by simp)

theorem parseUrl_canon {s : List Char} {u : Url} (hu : parseUrl s = some u) : UrlCanon u := by
  simp only [parseUrl] at hu
  by_cases he : (takeW Char.isAlpha s).isEmpty = true
  · rw [if_pos he] at hu
    exact absurd hu (by simp)
  · rw [if_neg he] at hu
    have hne : takeW Char.isAlpha s ≠ [] := by
      intro h; rw [h] at he; exact he rfl
    have hlne : lowerChars (takeW Char.isAlpha s) ≠ [] := by
      simp only [lowerChars, ne_eq, List.map_eq_nil_iff]
      exact hne
    have hla : ∀ c ∈ lowerChars (takeW Char.isAlpha s), c.isAlpha = true := by
      intro c hc
      obtain ⟨c0, hc0, rfl⟩ := List.mem_map.mp hc
      exact lowerChar_isAlpha (mem_takeW hc0).1
    revert hu
    cases hd : dropW Char.isAlpha s with
    | nil => intro hu; exact absurd hu (by simp)
    | cons c1 t1 =>
      cases t1 with
      | nil => intro hu; exact absurd hu (by simp)
      | cons c2 t2 =>
        cases t2 with
        | nil => intro hu; exact absurd hu (by simp)
        | cons c3 rest =>
          intro hu0
          have hu : (if c1 = ':' ∧ c2 = '/' ∧ c3 = '/' then
              parseAuthority (lowerChars (takeW Char.isAlpha s)) rest else none) = some u := hu0
          by_cases h3 : c1 = ':' ∧ c2 = '/' ∧ c3 = '/'
          · rw [if_pos h3] at hu
            exact parseAuthority_canon hlne hla (lowerChars_idem _) hu
          · rw [if_neg h3] at hu
            exact absurd hu (by simp)

theorem join_canon {b : Url} {href : List Char} {u : Url}
    (hb : UrlCanon b) (hu : b.join href = some u) : UrlCanon u := by
  cases href with
  | nil =>
    simp only [Url.join] at hu
    obtain rfl := Option.some.inj hu
    exact ⟨hb.scheme_ne, hb.scheme_alpha, hb.scheme_lower, hb.host_ok, hb.host_lower,
      hb.path_ne, hb.path_good, by intro q hq; exact hb.query_ok q hq⟩
  | cons c rest =>
    simp only [Url.join] at hu
    by_cases h1 : c = '/'
    · rw [if_pos h1] at hu
      revert hu
      cases rest with
      | nil =>
        intro hu
        exact parseAfterHost_canon hb.scheme_ne hb.scheme_alpha hb.scheme_lower
          hb.host_ok hb.host_lower hu
      | cons c2 rest2 =>
        intro hu0
        have hu : (if c2 = '/' then parseAuthority b.scheme rest2
            else parseAfterHost b.scheme b.host (c :: c2 :: rest2)) = some u := hu0
        by_cases h2 : c2 = '/'
        · rw [if_pos h2] at hu
          exact parseAuthority_canon hb.scheme_ne hb.scheme_alpha hb.scheme_lower hu
        · rw [if_neg h2] at hu
          exact parseAfterHost_canon hb.scheme_ne hb.scheme_alpha hb.scheme_lower
            hb.host_ok hb.host_lower hu
    · rw [if_neg h1] at hu
      by_cases h2 : c = '?'
      · rw [if_pos h2] at hu
        obtain ⟨g1, g2, g3, g4⟩ := parseQF_fields hu
        exact ⟨by rw [g1]; exact hb.scheme_ne, by rw [g1]; exact hb.scheme_alpha,
          by rw [g1]; exact hb.scheme_lower, by rw [g2]; exact hb.host_ok,
          by rw [g2]; exact hb.host_lower, by rw [g3]; exact hb.path_ne,
          by rw [g3]; exact hb.path_good, g4⟩
      · rw [if_neg h2] at hu
        by_cases h3 : c = '#'
        · rw [if_pos h3] at hu
          obtain rfl := Option.some.inj hu
          exact ⟨hb.scheme_ne, hb.scheme_alpha, hb.scheme_lower, hb.host_ok, hb.host_lower,
            hb.path_ne, hb.path_good, by intro q hq; exact hb.query_ok q hq⟩
        · rw [if_neg h3] at hu
          obtain rfl := Option.some.inj hu
          refine ⟨hb.scheme_ne, hb.scheme_alpha, hb.scheme_lower, hb.host_ok, hb.host_lower,
            ?_, ?_, ?_⟩
          · exact segsFold_ne_nil _ _ (splitChar_ne_nil _ _)
          · refine segsFold_good _ _ ?_ ?_
            · intro t ht
              exact hb.path_good t ((List.dropLast_sublist b.path).subset ht)
            · intro s hs c2 hc2
              have hm := mem_splitChar hs c2 hc2
              have hp := (mem_takeW hm.1).1
              exact ⟨hm.2, (isPathChar_iff.mp hp).1, (isPathChar_iff.mp hp).2⟩
          · intro q hq c2 hc2
            revert hq
            cases hq2 : dropW isPathChar (takeW isQChar (c :: rest)) with
            | nil => intro hq; exact absurd hq (by simp)
            | cons x q0 =>
              intro hq
              obtain rfl := Option.some.inj hq
              have : c2 ∈ dropW isPathChar (takeW isQChar (c :: rest)) := by
                rw [hq2]; exact List.mem_cons_of_mem x hc2
              exact isQChar_iff.mp (mem_takeW (mem_dropW this)).1

theorem takeW_all {p : Char → Bool} {l : List Char} (h : ∀ c ∈ l, p c = true) :
    takeW p l = l := by
  have := takeW_append p l [] h
  simpa [takeW] using this

theorem dropW_all {p : Char → Bool} {l : List Char} (h : ∀ c ∈ l, p c = true) :
    dropW p l = [] := by
  have := dropW_append p l [] h
  simpa [dropW] using this

theorem pathChars_cons (s : List Char) (rest : List (List Char)) :
    pathChars (s :: rest) = ('/' :: s) ++ pathChars rest := by
  simp [pathChars]

theorem pathChars_pathChar : ∀ (p : List (List Char)), (∀ s ∈ p, goodSeg s) →
    ∀ c ∈ pathChars p, isPathChar c = true
  | [], _, c, hc => by simp [pathChars] at hc
  | s :: rest, hp, c, hc => by
    rw [pathChars_cons] at hc
    rcases List.mem_append.mp hc with h | h
    · rcases List.mem_cons.mp h with h2 | h2
      · subst h2; decide
      · have := (hp s (by simp)).1 c h2
        exact isPathChar_iff.mpr ⟨this.2.1, this.2.2⟩
    · exact pathChars_pathChar rest (fun t ht => hp t (List.mem_cons_of_mem s ht)) c h

theorem splitChar_pathChars : ∀ (prest : List (List Char)) (p0 : List Char),
    goodSeg p0 → (∀ s ∈ prest, goodSeg s) →
    splitChar '/' (p0 ++ pathChars prest) = p0 :: prest
  | [], p0, h0, _ => by
    simp only [pathChars, List.map_nil, List.flatten_nil, List.append_nil]
    exact splitChar_no_sep (fun c hc => (h0.1 c hc).1)
  | t :: rest2, p0, h0, hrest => by
    rw [pathChars_cons]
    have e : p0 ++ ('/' :: t) ++ pathChars rest2 = p0 ++ '/' :: (t ++ pathChars rest2) := by
      simp
    rw [← List.append_assoc, e]
    rw [splitChar_append_sep (t ++ pathChars rest2) (fun c hc => (h0.1 c hc).1)]
    rw [splitChar_pathChars rest2 t (hrest t (by simp))
      (fun s hs => hrest s (List.mem_cons_of_mem t hs))]

theorem parseQF_round (sc h : List Char) (p : List (List Char)) (q f : Option (List Char))
    (hq_ok : ∀ q0, q = some q0 → ∀ c ∈ q0, c ≠ '#') :
    parseQF sc h p (qfQ q ++ qfF f) = some ⟨sc, h, p, q, f⟩ := by
  cases q with
  | none =>
    cases f with
    | none => rfl
    | some f0 =>
      show parseQF sc h p ('#' :: f0) = _
      simp [parseQF]
  | some q0 =>
    have hall : ∀ c ∈ q0, isQChar c = true := fun c hc => isQChar_iff.mpr (hq_ok q0 rfl c hc)
    cases f with
    | none =>
      have e1 : dropW isQChar q0 = [] := dropW_all hall
      have e2 : takeW isQChar q0 = q0 := takeW_all hall
      simp only [qfQ, qfF, List.append_nil]
      simp [parseQF, e1, e2]
    | some f0 =>
      have e1 : dropW isQChar (q0 ++ '#' :: f0) = '#' :: f0 := by
        rw [dropW_append _ _ _ hall]
        exact dropW_cons_false _ _ _ (by decide)
      have e2 : takeW isQChar (q0 ++ '#' :: f0) = q0 := by
        rw [takeW_append _ _ _ hall, takeW_cons_false _ _ _ (by decide), List.append_nil]
      simp only [qfQ, qfF, List.cons_append]
      simp [parseQF, e1, e2]

theorem parseAfterHost_round (sc h : List Char) (p0 : List Char) (prest : List (List Char))
    (q f : Option (List Char)) (hp_good : ∀ s ∈ p0 :: prest, goodSeg s)
    (hq_ok : ∀ q0, q = some q0 → ∀ c ∈ q0, c ≠ '#') :
    parseAfterHost sc h (pathChars (p0 :: prest) ++ (qfQ q ++ qfF f)) =
      some ⟨sc, h, p0 :: prest, q, f⟩ := by
  have hpc : pathChars (p0 :: prest) ++ (qfQ q ++ qfF f) =
      '/' :: (p0 ++ pathChars prest ++ (qfQ q ++ qfF f)) := by
    rw [pathChars_cons]
    simp
  have hPathAll : ∀ c ∈ p0 ++ pathChars prest, isPathChar c = true := by
    intro c hc
    rcases List.mem_append.mp hc with h2 | h2
    · have := (hp_good p0 (by simp)).1 c h2
      exact isPathChar_iff.mpr ⟨this.2.1, this.2.2⟩
    · exact pathChars_pathChar prest (fun t ht => hp_good t (List.mem_cons_of_mem p0 ht)) c h2
  have hQFtake : takeW isPathChar (qfQ q ++ qfF f) = [] := by
    cases q with
    | some q0 => exact takeW_cons_false _ _ _ (by decide)
    | none =>
      cases f with
      | none => rfl
      | some f0 => exact takeW_cons_false _ _ _ (by decide)
  have hQFdrop : dropW isPathChar (qfQ q ++ qfF f) = qfQ q ++ qfF f := by
    cases q with
    | some q0 => exact dropW_cons_false _ _ _ (by decide)
    | none =>
      cases f with
      | none => rfl
      | some f0 => exact dropW_cons_false _ _ _ (by decide)
  have e1 : takeW isPathChar (p0 ++ (pathChars prest ++ (qfQ q ++ qfF f))) =
      p0 ++ pathChars prest := by
    rw [← List.append_assoc, takeW_append _ _ _ hPathAll, hQFtake, List.append_nil]
  have e2 : dropW isPathChar (p0 ++ (pathChars prest ++ (qfQ q ++ qfF f))) =
      qfQ q ++ qfF f := by
    rw [← List.append_assoc, dropW_append _ _ _ hPathAll, hQFdrop]
  have e3 : segsFold [] (splitChar '/' (p0 ++ pathChars prest)) = p0 :: prest := by
    rw [splitChar_pathChars prest p0 (hp_good p0 (by simp))
      (fun s hs => hp_good s (List.mem_cons_of_mem p0 hs))]
    rw [segsFold_id (p0 :: prest) [] (by simp)
      (fun s hs => ⟨(hp_good s hs).2.1, (hp_good s hs).2.2⟩)]
    simp
  rw [hpc]
  simp [parseAfterHost, e1, e2, e3, parseQF_round sc h (p0 :: prest) q f hq_ok]

theorem parseUrl_toChars {u : Url} (hcu : UrlCanon u) : parseUrl u.toChars = some u := by
  obtain ⟨sc, h, p, q, f⟩ := u
  obtain ⟨p0, prest, rfl⟩ : ∃ p0 prest, p = p0 :: prest := by
    cases p with
    | nil => exact absurd rfl hcu.path_ne
    | cons a b => exact ⟨a, b, rfl⟩
  have hsc_alpha : ∀ c ∈ sc, c.isAlpha = true := hcu.scheme_alpha
  have e0 : (sc : List Char).isEmpty = false := by
    cases hsc : sc with
    | nil => exact absurd hsc hcu.scheme_ne
    | cons a b => simp
  have hT : Url.toChars ⟨sc, h, p0 :: prest, q, f⟩ =
      sc ++ ':' :: '/' :: '/' :: (h ++ (pathChars (p0 :: prest) ++ (qfQ q ++ qfF f))) := by
    simp [Url.toChars, List.append_assoc]
  have e1 : takeW Char.isAlpha
      (sc ++ ':' :: '/' :: '/' :: (h ++ (pathChars (p0 :: prest) ++ (qfQ q ++ qfF f)))) = sc := by
    rw [takeW_append _ _ _ hsc_alpha,
      takeW_cons_false _ _ _ (by decide : Char.isAlpha ':' = false), List.append_nil]
  have e2 : dropW Char.isAlpha
      (sc ++ ':' :: '/' :: '/' :: (h ++ (pathChars (p0 :: prest) ++ (qfQ q ++ qfF f)))) =
      ':' :: '/' :: '/' :: (h ++ (pathChars (p0 :: prest) ++ (qfQ q ++ qfF f))) := by
    rw [dropW_append _ _ _ hsc_alpha]
    exact dropW_cons_false _ _ _ (by decide : Char.isAlpha ':' = false)
  have hhchars : ∀ c ∈ h, isHostChar c = true :=
    fun c hc2 => isHostChar_of_bad (hostOk_mem hcu.host_ok c hc2)
  have hpc : pathChars (p0 :: prest) ++ (qfQ q ++ qfF f) =
      '/' :: (p0 ++ pathChars prest ++ (qfQ q ++ qfF f)) := by
    rw [pathChars_cons]
    simp
  have e3 : takeW isHostChar (h ++ (pathChars (p0 :: prest) ++ (qfQ q ++ qfF f))) = h := by
    rw [takeW_append _ _ _ hhchars, hpc,
      takeW_cons_false _ _ _ (by decide : isHostChar '/' = false), List.append_nil]
  have e4 : dropW isHostChar (h ++ (pathChars (p0 :: prest) ++ (qfQ q ++ qfF f))) =
      pathChars (p0 :: prest) ++ (qfQ q ++ qfF f) := by
    rw [dropW_append _ _ _ hhchars, hpc]
    exact dropW_cons_false _ _ _ (by decide : isHostChar '/' = false)
  rw [hT]
  simp only [parseUrl, e1, e2, e0]
  simp only [Bool.false_eq_true, if_false]
  simp only [parseAuthority, e3, e4, hcu.scheme_lower, hcu.host_lower]
  simp only [hcu.host_ok, if_true]
  have := parseAfterHost_round sc h p0 prest q f hcu.path_good
    (fun q0 hq0 => hcu.query_ok q0 hq0)
  simpa using this

theorem normalize_url_render {base href s : String} (h : normalize_url base href = some s) :
    ∃ w : Url, UrlCanon w ∧ s = w.render := by
  unfold normalize_url at h
  revert h
  cases hp : parseUrl href.data with
  | some w =>
    intro h
    exact ⟨w, parseUrl_canon hp, (Option.some.inj h).symm⟩
  | none =>
    cases hb : parseUrl base.data with
    | none => intro h; exact absurd h (by simp)
    | some b =>
      cases hj : b.join href.data with
      | none => intro h; exact absurd h (by simp [hj])
      | some w =>
        intro h
        simp only [hj, Option.map_some, Option.some_bind] at h
        exact ⟨w, join_canon (parseUrl_canon hb) hj, (Option.some.inj h).symm⟩

theorem normalize_url_of_render {base : String} {w : Url} (hw : UrlCanon w) :
    normalize_url base w.render = some w.render := by
  unfold normalize_url
  have : parseUrl (Url.render w).data = some w := parseUrl_toChars hw
  rw [this]

theorem contains_iff_mem {l : List String} {x : String} : l.contains x = true ↔ x ∈ l := by
  simp [List.contains_iff_exists_mem_beq, beq_iff_eq]

theorem handleResponse_ok {bd url : String} {rest visited2 : List String}
    {results : List CrawlResult} {resp : Response} {st2 : CrawlState}
    (h : handleResponse bd url rest visited2 results resp = .ok st2) :
    st2.visited = visited2 ∧
    (∃ r, st2.results = results ++ [r] ∧ r.url = url) ∧
    st2.to_visit = rest ++ (respLinks url resp).filter
      (fun l => !visited2.contains l && is_same_domain bd l) := by
  unfold handleResponse at h
  by_cases hct : strStarts (resp.contentType.getD "") "text/html" = true
  · rw [if_pos hct] at h
    revert h
    cases ht : resp.text with
    | error e => intro h; exact absurd h (by simp)
    | ok body =>
      intro h
      obtain rfl := (Except.ok.inj h).symm
      refine ⟨rfl, ⟨.Html url (parse_html url body), rfl, rfl⟩, ?_⟩
      simp [respLinks, hct, ht]
  · rw [if_neg hct] at h
    revert h
    cases hb : resp.bytes with
    | error e => intro h; exact absurd h (by simp)
    | ok bs =>
      intro h
      obtain rfl := (Except.ok.inj h).symm
      refine ⟨rfl, ⟨.File url (resp.contentType.getD "") bs, rfl, rfl⟩, ?_⟩
      simp [respLinks, hct]

theorem handleResponse_reads_ok {bd url : String} {rest visited2 : List String}
    {results : List CrawlResult} {resp : Response}
    (ht : exOk resp.text = true) (hb : exOk resp.bytes = true) :
    ∃ st2, handleResponse bd url rest visited2 results resp = .ok st2 := by
  unfold handleResponse
  by_cases hct : strStarts (resp.contentType.getD "") "text/html" = true
  · rw [if_pos hct]
    revert ht
    cases h2 : resp.text with
    | error e => intro ht; exact absurd ht (by simp [exOk])
    | ok body => intro ht; exact ⟨_, rfl⟩
  · rw [if_neg hct]
    revert hb
    cases h2 : resp.bytes with
    | error e => intro hb; exact absurd hb (by simp [exOk])
    | ok bs => intro hb; exact ⟨_, rfl⟩

theorem crawlIter_visited {fetch : Fetch} {bd url : String}
    {rest visited : List String} {results : List CrawlResult}
    (h : visited.contains url = true) :
    crawlIter fetch bd visited results url rest = .ok ⟨rest, visited, results⟩ := by
  unfold crawlIter
  rw [if_pos h]

theorem crawlIter_error {fetch : Fetch} {bd url e : String}
    {rest visited : List String} {results : List CrawlResult}
    (hv : visited.contains url = false) (he : fetch url = .error e) :
    crawlIter fetch bd visited results url rest =
      .ok ⟨rest, url :: visited, results ++ [.Error url e]⟩ := by
  unfold crawlIter
  rw [if_neg (by rw [hv]; simp), he]

theorem crawlIter_fetch_ok {fetch : Fetch} {bd url : String}
    {rest visited : List String} {results : List CrawlResult} {resp : Response}
    (hv : visited.contains url = false) (hr : fetch url = .ok resp) :
    crawlIter fetch bd visited results url rest =
      handleResponse bd url rest (url :: visited) results resp := by
  unfold crawlIter
  rw [if_neg (by rw [hv]; simp), hr]

theorem crawlLoop_zero {fetch : Fetch} {bd : String} {st : CrawlState} :
    crawlLoop fetch bd 0 st = .outOfFuel st := rfl

theorem crawlLoop_nil {fetch : Fetch} {bd : String} {visited : List String}
    {results : List CrawlResult} {fuel : Nat} :
    crawlLoop fetch bd (fuel + 1) ⟨[], visited, results⟩ = .done ⟨[], visited, results⟩ := rfl

theorem crawlLoop_cons {fetch : Fetch} {bd url : String} {rest visited : List String}
    {results : List CrawlResult} {fuel : Nat} :
    crawlLoop fetch bd (fuel + 1) ⟨url :: rest, visited, results⟩ =
      match crawlIter fetch bd visited results url rest with
      | .error e => .aborted e
      | .ok st2 => crawlLoop fetch bd fuel st2 := rfl

theorem crawlLoop_cons_step {fetch : Fetch} {bd url : String} {rest visited : List String}
    {results : List CrawlResult} {fuel : Nat} {st2 : CrawlState}
    (h : crawlIter fetch bd visited results url rest = .ok st2) :
    crawlLoop fetch bd (fuel + 1) ⟨url :: rest, visited, results⟩ =
      crawlLoop fetch bd fuel st2 := by
  rw [crawlLoop_cons, h]

theorem crawlIter_reads_ok {fetch : Fetch} {bd url : String}
    {rest visited : List String} {results : List CrawlResult}
    (hreads : ∀ r, fetch url = .ok r → exOk r.text = true ∧ exOk r.bytes = true) :
    ∃ st2, crawlIter fetch bd visited results url rest = .ok st2 := by
  by_cases hv : visited.contains url = true
  · exact ⟨_, crawlIter_visited hv⟩
  · replace hv : visited.contains url = false := by
      cases h2 : visited.contains url with
      | true => exact absurd h2 hv
      | false => rfl
    cases hr : fetch url with
    | error e => exact ⟨_, crawlIter_error hv hr⟩
    | ok resp =>
      obtain ⟨st2, hst2⟩ := @handleResponse_reads_ok bd url rest (url :: visited) results resp
        (hreads resp hr).1 (hreads resp hr).2
      exact ⟨st2, (crawlIter_fetch_ok hv hr).trans hst2⟩

theorem crawlLoop_no_abort {fetch : Fetch} {bd : String}
    (hreads : ∀ u r, fetch u = .ok r → exOk r.text = true ∧ exOk r.bytes = true) :
    ∀ (fuel : Nat) (st : CrawlState) (e : String), crawlLoop fetch bd fuel st ≠ .aborted e := by
  intro fuel
  induction fuel with
  | zero => intro st e h; exact CrawlOutcome.noConfusion h
  | succ fuel ih =>
    intro st e h
    obtain ⟨tv, vis, res⟩ := st
    cases tv with
    | nil => rw [crawlLoop_nil] at h; exact CrawlOutcome.noConfusion h
    | cons url rest =>
      obtain ⟨st2, hst2⟩ := @crawlIter_reads_ok fetch bd url rest vis res
        (fun r hr => hreads url r hr)
      rw [crawlLoop_cons_step hst2] at h
      exact ih _ _ h

theorem nodup_append_one {α : Type} {l : List α} {x : α} (h : l.Nodup) (hx : x ∉ l) :
    (l ++ [x]).Nodup := by
  refine List.Nodup.append h (by simp) ?_
  intro a ha hb
  simp at hb
  subst hb
  exact hx ha

theorem stInv_iter {fetch : Fetch} {bd seed url : String} {rest visited : List String}
    {results : List CrawlResult} {st2 : CrawlState}
    (h : crawlIter fetch bd visited results url rest = .ok st2)
    (hinv : StInv bd seed ⟨url :: rest, visited, results⟩) : StInv bd seed st2 := by
  obtain ⟨h1, h2, h3, h4, h5, h6⟩ := hinv
  have hurl_scope : url = seed ∨ is_same_domain bd url = true := h6 url (by simp)
  have hrest : ∀ u ∈ rest, u = seed ∨ is_same_domain bd u = true :=
    fun u hu => h6 u (List.mem_cons_of_mem url hu)
  by_cases hv : visited.contains url = true
  · rw [crawlIter_visited hv] at h
    obtain rfl := (Except.ok.inj h)
    exact ⟨h1, h2, h3, h4, h5, hrest⟩
  · replace hv : visited.contains url = false := by
      cases h0 : visited.contains url with
      | true => exact absurd h0 hv
      | false => rfl
    have hnv : url ∉ visited := fun hm => by
      rw [contains_iff_mem.mpr hm] at hv
      exact Bool.noConfusion hv
    have hfresh : url ∉ results.map CrawlResult.url := by
      intro hm
      obtain ⟨r, hr, hre⟩ := List.mem_map.mp hm
      exact hnv (hre ▸ h2 r hr)
    cases hr : fetch url with
    | error e =>
      rw [crawlIter_error hv hr] at h
      obtain rfl := (Except.ok.inj h)
      refine ⟨?_, ?_, ?_, ?_, ?_, hrest⟩
      · rw [List.map_append]
        exact nodup_append_one h1 hfresh
      · intro r hrm
        rcases List.mem_append.mp hrm with hin | hin
        · exact List.mem_cons_of_mem url (h2 r hin)
        · simp at hin
          subst hin
          simp [CrawlResult.url]
      · simp [h3]
      · exact List.nodup_cons.mpr ⟨hnv, h4⟩
      · intro r hrm
        rcases List.mem_append.mp hrm with hin | hin
        · exact h5 r hin
        · simp at hin
          subst hin
          simpa [CrawlResult.url] using hurl_scope
    | ok resp =>
      rw [crawlIter_fetch_ok hv hr] at h
      obtain ⟨hvis, ⟨r0, hres, hurl0⟩, hqueue⟩ := handleResponse_ok h
      refine ⟨?_, ?_, ?_, ?_, ?_, ?_⟩
      · rw [hres, List.map_append]
        simp only [List.map_cons, List.map_nil]
        rw [hurl0]
        exact nodup_append_one h1 hfresh
      · intro r hrm
        rw [hres] at hrm
        rw [hvis]
        rcases List.mem_append.mp hrm with hin | hin
        · exact List.mem_cons_of_mem url (h2 r hin)
        · simp at hin
          subst hin
          simp [hurl0]
      · rw [hres, hvis]
        simp [h3]
      · rw [hvis]
        exact List.nodup_cons.mpr ⟨hnv, h4⟩
      · intro r hrm
        rw [hres] at hrm
        rcases List.mem_append.mp hrm with hin | hin
        · exact h5 r hin
        · simp at hin
          subst hin
          rw [hurl0]
          exact hurl_scope
      · intro u hu
        rw [hqueue] at hu
        rcases List.mem_append.mp hu with hin | hin
        · exact hrest u hin
        · have := (List.mem_filter.mp hin).2
          have hs := ((Bool.and_eq_true _ _).mp this).2
          exact Or.inr hs

theorem crawlLoop_done_inv {fetch : Fetch} {bd seed : String} :
    ∀ {fuel : Nat} {st st' : CrawlState},
      crawlLoop fetch bd fuel st = .done st' → StInv bd seed st →
      StInv bd seed st' ∧ st'.to_visit = [] := by
  intro fuel
  induction fuel with
  | zero =>
    intro st st' h _
    rw [crawlLoop_zero] at h
    exact CrawlOutcome.noConfusion h
  | succ fuel ih =>
    intro st st' h hinv
    obtain ⟨tv, vis, res⟩ := st
    cases tv with
    | nil =>
      rw [crawlLoop_nil] at h
      obtain rfl := (CrawlOutcome.done.inj h)
      exact ⟨hinv, rfl⟩
    | cons url rest =>
      cases hit : crawlIter fetch bd vis res url rest with
      | error e =>
        rw [crawlLoop_cons, hit] at h
        exact CrawlOutcome.noConfusion h
      | ok st2 =>
        rw [crawlLoop_cons_step hit] at h
        exact ih h (stInv_iter hit hinv)

theorem length_filter_le_mono {α : Type} (p q : α → Bool)
    (hpq : ∀ y, q y = true → p y = true) :
    ∀ l : List α, (l.filter q).length ≤ (l.filter p).length := by
  intro l
  induction l with
  | nil => simp
  | cons a as ih =>
    by_cases hq : q a = true
    · rw [List.filter_cons_of_pos hq, List.filter_cons_of_pos (hpq a hq)]
      simpa using ih
    · replace hq : q a = false := by
        cases h0 : q a with
        | true => exact absurd h0 hq
        | false => rfl
      rw [List.filter_cons_of_neg (by simp [hq])]
      by_cases hp : p a = true
      · rw [List.filter_cons_of_pos hp]
        exact Nat.le_succ_of_le ih
      · rw [List.filter_cons_of_neg hp]
        exact ih

theorem length_filter_lt {α : Type} (p q : α → Bool) (l : List α) (x : α)
    (hx : x ∈ l) (hpq : ∀ y, q y = true → p y = true)
    (hpx : p x = true) (hqx : q x = false) :
    (l.filter q).length < (l.filter p).length := by
  induction l with
  | nil => simp at hx
  | cons a as ih =>
    rcases List.mem_cons.mp hx with rfl | hmem
    · rw [List.filter_cons_of_pos hpx, List.filter_cons_of_neg (by simp [hqx])]
      exact Nat.lt_succ_of_le (length_filter_le_mono p q hpq as)
    · by_cases hq : q a = true
      · rw [List.filter_cons_of_pos hq, List.filter_cons_of_pos (hpq a hq)]
        simpa using ih hmem
      · replace hq : q a = false := by
          cases h0 : q a with
          | true => exact absurd h0 hq
          | false => rfl
        rw [List.filter_cons_of_neg (by simp [hq])]
        by_cases hp : p a = true
        · rw [List.filter_cons_of_pos hp]
          exact Nat.lt_succ_of_lt (ih hmem)
        · rw [List.filter_cons_of_neg hp]
          exact ih hmem

theorem readsOkOn_spec {fetch : Fetch} {R : List String} (h : readsOkOn fetch R = true)
    {u : String} {r : Response} (hu : u ∈ R) (hr : fetch u = .ok r) :
    exOk r.text = true ∧ exOk r.bytes = true := by
  have h2 := List.all_eq_true.mp h u hu
  rw [hr] at h2
  exact (Bool.and_eq_true _ _).mp h2

theorem closureOK_spec {fetch : Fetch} {bd : String} {R : List String}
    (h : closureOK fetch bd R = true) {u l : String}
    (hu : u ∈ R) (hl : l ∈ pageLinks fetch u) (hs : is_same_domain bd l = true) : l ∈ R := by
  have h2 := List.all_eq_true.mp (List.all_eq_true.mp h u hu) l hl
  rw [hs] at h2
  simp only [Bool.not_true, Bool.false_or] at h2
  exact contains_iff_mem.mp h2

theorem boundOK_spec {fetch : Fetch} {R : List String} {B : Nat}
    (h : boundOK fetch R B = true) {u : String} (hu : u ∈ R) :
    (pageLinks fetch u).length ≤ B :=
  of_decide_eq_true (List.all_eq_true.mp h u hu)

theorem contains_cons_self (url : String) (vis : List String) :
    (url :: vis).contains url = true := by
  exact contains_iff_mem.mpr (by simp)

theorem filter_visited_lt {R vis : List String} {url : String}
    (hurlR : url ∈ R) (hv : vis.contains url = false) :
    (R.filter (fun u => !((url :: vis).contains u))).length <
      (R.filter (fun u => !vis.contains u)).length := by
  refine length_filter_lt _ _ R url hurlR ?_ (by rw [hv]; rfl) ?_
  · intro y hy
    simp only [Bool.not_eq_true'] at hy ⊢
    rw [List.contains_cons] at hy
    exact ((Bool.or_eq_false_iff).mp hy).2
  · rw [contains_cons_self]
    rfl

theorem crawlLoop_drains {fetch : Fetch} {bd : String} {R : List String} {B : Nat}
    (hreads : readsOkOn fetch R = true) (hclo : closureOK fetch bd R = true)
    (hbound : boundOK fetch R B = true) :
    ∀ (fuel : Nat) (st : CrawlState), (∀ u ∈ st.to_visit, u ∈ R) →
      crawlMeasure R B st < fuel → ∃ st', crawlLoop fetch bd fuel st = .done st' := by
  intro fuel
  induction fuel with
  | zero => intro st _ hm; exact absurd hm (by simp)
  | succ fuel ih =>
    intro st hsub hm
    obtain ⟨tv, vis, res⟩ := st
    cases tv with
    | nil => exact ⟨⟨[], vis, res⟩, crawlLoop_nil⟩
    | cons url rest =>
      have hurlR : url ∈ R := hsub url (by simp)
      have hrestR : ∀ u ∈ rest, u ∈ R := fun u hu => hsub u (List.mem_cons_of_mem url hu)
      by_cases hv : vis.contains url = true
      · have hm2 : crawlMeasure R B ⟨rest, vis, res⟩ < fuel := by
          revert hm
          simp only [crawlMeasure, List.length_cons]
          intro hm
          omega
        obtain ⟨st', hst'⟩ := ih ⟨rest, vis, res⟩ hrestR hm2
        exact ⟨st', by rw [crawlLoop_cons_step (crawlIter_visited hv)]; exact hst'⟩
      · replace hv : vis.contains url = false := by
          cases h0 : vis.contains url with
          | true => exact absurd h0 hv
          | false => rfl
        have hflt := filter_visited_lt hurlR hv
        have hmul : (R.filter (fun u => !((url :: vis).contains u))).length * (B + 1) + (B + 1) ≤
            (R.filter (fun u => !vis.contains u)).length * (B + 1) := by
          have := Nat.mul_le_mul_right (B + 1) (Nat.succ_le_of_lt hflt)
          rw [Nat.succ_mul] at this
          exact this
        cases hr : fetch url with
        | error e =>
          have hm2 : crawlMeasure R B ⟨rest, url :: vis, res ++ [.Error url e]⟩ < fuel := by
            revert hm hmul
            simp only [crawlMeasure, List.length_cons]
            intro hm hmul
            omega
          obtain ⟨st', hst'⟩ := ih _ hrestR hm2
          exact ⟨st', by rw [crawlLoop_cons_step (crawlIter_error hv hr)]; exact hst'⟩
        | ok resp =>
          have hread := readsOkOn_spec hreads hurlR hr
          obtain ⟨st2, hst2⟩ := @handleResponse_reads_ok bd url rest (url :: vis) res resp
            hread.1 hread.2
          obtain ⟨hvis, _, hqueue⟩ := handleResponse_ok hst2
          have hpl : respLinks url resp = pageLinks fetch url := by
            simp [pageLinks, hr]
          have hklen : (List.filter (fun l => !(url :: vis).contains l && is_same_domain bd l)
              (respLinks url resp)).length ≤ B := by
            calc (List.filter _ (respLinks url resp)).length
                ≤ (respLinks url resp).length := List.length_filter_le _ _
              _ = (pageLinks fetch url).length := by rw [hpl]
              _ ≤ B := boundOK_spec hbound hurlR
          have hsubst2 : ∀ u ∈ st2.to_visit, u ∈ R := by
            intro u hu
            rw [hqueue] at hu
            rcases List.mem_append.mp hu with hin | hin
            · exact hrestR u hin
            · have hf := List.mem_filter.mp hin
              have hs := ((Bool.and_eq_true _ _).mp hf.2).2
              refine closureOK_spec hclo hurlR ?_ hs
              rw [← hpl]
              exact hf.1
          have hm2 : crawlMeasure R B st2 < fuel := by
            have hq2 : st2.to_visit.length ≤ rest.length + B := by
              rw [hqueue]
              simp only [List.length_append]
              omega
            revert hm hmul hq2
            simp only [crawlMeasure, List.length_cons, hvis]
            intro hm hmul hq2
            omega
          obtain ⟨st', hst'⟩ := ih st2 hsubst2 hm2
          refine ⟨st', ?_⟩
          rw [crawlLoop_cons_step ((crawlIter_fetch_ok hv hr).trans hst2)]
          exact hst'

theorem bfsOrder_nil {links : String → List String} {inScope : String → Bool}
    {fuel : Nat} {seen : List String} :
    bfsOrder links inScope (fuel + 1) [] seen = [] := rfl

theorem bfsOrder_cons {links : String → List String} {inScope : String → Bool}
    {fuel : Nat} {u : String} {rest seen : List String} :
    bfsOrder links inScope (fuel + 1) (u :: rest) seen =
      if seen.contains u = true then bfsOrder links inScope fuel rest seen
      else
        u :: bfsOrder links inScope fuel
          (rest ++ (links u).filter (fun l => !((u :: seen).contains l) && inScope l))
          (u :: seen) := rfl

theorem crawlLoop_bfs {fetch : Fetch} {bd : String} :
    ∀ {fuel : Nat} {st st' : CrawlState},
      crawlLoop fetch bd fuel st = .done st' →
      st'.results.map CrawlResult.url =
        st.results.map CrawlResult.url ++
          bfsOrder (pageLinks fetch) (is_same_domain bd) fuel st.to_visit st.visited := by
  intro fuel
  induction fuel with
  | zero =>
    intro st st' h
    rw [crawlLoop_zero] at h
    exact CrawlOutcome.noConfusion h
  | succ fuel ih =>
    intro st st' h
    obtain ⟨tv, vis, res⟩ := st
    cases tv with
    | nil =>
      rw [crawlLoop_nil] at h
      obtain rfl := (CrawlOutcome.done.inj h)
      simp [bfsOrder_nil]
    | cons url rest =>
      by_cases hv : vis.contains url = true
      · rw [crawlLoop_cons_step (crawlIter_visited hv)] at h
        have := ih h
        rw [bfsOrder_cons, if_pos hv]
        exact this
      · replace hv : vis.contains url = false := by
          cases h0 : vis.contains url with
          | true => exact absurd h0 hv
          | false => rfl
        rw [bfsOrder_cons, if_neg (by rw [hv]; simp)]
        cases hr : fetch url with
        | error e =>
          rw [crawlLoop_cons_step (crawlIter_error hv hr)] at h
          have hih := ih h
          have hpl : pageLinks fetch url = [] := by simp [pageLinks, hr]
          rw [hpl]
          simp only [List.filter_nil, List.append_nil]
          rw [hih]
          simp [CrawlResult.url]
        | ok resp =>
          cases hh : handleResponse bd url rest (url :: vis) res resp with
          | error e =>
            rw [crawlLoop_cons, crawlIter_fetch_ok hv hr, hh] at h
            exact CrawlOutcome.noConfusion h
          | ok st2 =>
            rw [crawlLoop_cons_step ((crawlIter_fetch_ok hv hr).trans hh)] at h
            have hih := ih h
            obtain ⟨hvis, ⟨r0, hres, hurl0⟩, hqueue⟩ := handleResponse_ok hh
            have hpl : pageLinks fetch url = respLinks url resp := by simp [pageLinks, hr]
            rw [hih, hres, hvis, hqueue, hpl]
            simp [hurl0]

/-- C1 counterexample: a URL whose response declares `text/html` but whose
body read fails makes the crawl abort with the propagated error (the `?` on
`response.text()`), instead of recording an `Error` result and returning a
result sequence — refuting the claim that every transport-level failure,
including a body-read failure, is captured per-URL. -/
theorem c1_counterexample :
    crawlLoop fetchBadBody "cex.com" 2 ⟨["https://cex.com/"], [], []⟩ =
      .aborted "body read failed" := by decide

/-- C1 (amended): a send-level transport failure is recorded as an `Error`
result carrying its message and the loop continues; if additionally no body
read fails, the loop never aborts, and whenever it completes it has produced
exactly one result per popped-and-not-skipped URL (those URLs are recorded
in the visited list).  A body-read failure, however, aborts the crawl. -/
theorem c1_error_isolation :
    (∀ (fetch : Fetch) (bd url e : String) (rest visited : List String)
       (results : List CrawlResult) (fuel : Nat),
       visited.contains url = false → fetch url = .error e →
       crawlLoop fetch bd (fuel + 1) ⟨url :: rest, visited, results⟩ =
         crawlLoop fetch bd fuel ⟨rest, url :: visited, results ++ [.Error url e]⟩) ∧
    (∀ (fetch : Fetch) (bd : String),
       (∀ u r, fetch u = .ok r → exOk r.text = true ∧ exOk r.bytes = true) →
       ∀ (fuel : Nat) (st : CrawlState) (e : String), crawlLoop fetch bd fuel st ≠ .aborted e) ∧
    (∀ (fetch : Fetch) (bd seed : String) (fuel : Nat) (st' : CrawlState),
       crawlLoop fetch bd fuel ⟨[seed], [], []⟩ = .done st' →
       st'.results.length = st'.visited.length) := by
  refine ⟨?_, ?_, ?_⟩
  · intro fetch bd url e rest visited results fuel hv he
    exact crawlLoop_cons_step (crawlIter_error hv he)
  · intro fetch bd hreads fuel st e
    exact crawlLoop_no_abort hreads fuel st e
  · intro fetch bd seed fuel st' h
    have hinv : StInv bd seed ⟨[seed], [], []⟩ := by
      refine ⟨by simp, by simp, rfl, by simp, by simp, ?_⟩
      intro u hu
      simp at hu
      subst hu
      exact Or.inl rfl
    exact ((crawlLoop_done_inv h hinv).1).2.2.1

/-- C1 witness: the amended theorem applied to a transport that refuses the
connection — the failure is recorded and the loop continues. -/
theorem c1_error_isolation_witness :
    crawlLoop fetchDown "w.com" 2 ⟨["https://w.com/x"], [], []⟩ =
      crawlLoop fetchDown "w.com" 1
        ⟨[], ["https://w.com/x"], [.Error "https://w.com/x" "connection refused"]⟩ :=
  c1_error_isolation.1 fetchDown "w.com" "https://w.com/x" "connection refused" [] [] [] 1
    (by decide) rfl

/-- C2: no URL appears twice among the `url` fields of a completed crawl's
results (each popped-and-not-skipped URL is inserted into the visited set
before any work on it), and a URL found visited at pop time is skipped
without producing a result. -/
theorem c2_no_duplicate_results :
    (∀ (fetch : Fetch) (bd seed : String) (fuel : Nat) (st' : CrawlState),
       crawlLoop fetch bd fuel ⟨[seed], [], []⟩ = .done st' →
       (st'.results.map CrawlResult.url).Nodup) ∧
    (∀ (fetch : Fetch) (bd url : String) (rest visited : List String)
       (results : List CrawlResult) (fuel : Nat),
       visited.contains url = true →
       crawlLoop fetch bd (fuel + 1) ⟨url :: rest, visited, results⟩ =
         crawlLoop fetch bd fuel ⟨rest, visited, results⟩) := by
  constructor
  · intro fetch bd seed fuel st' h
    have hinv : StInv bd seed ⟨[seed], [], []⟩ := by
      refine ⟨by simp, by simp, rfl, by simp, by simp, ?_⟩
      intro u hu
      simp at hu
      subst hu
      exact Or.inl rfl
    exact ((crawlLoop_done_inv h hinv).1).1
  · intro fetch bd url rest visited results fuel hv
    exact crawlLoop_cons_step (crawlIter_visited hv)

/-- C2 witness: the duplicate-freedom theorem applied to the completed crawl
of the concrete two-URL site. -/
theorem c2_no_duplicate_results_witness :
    (stSite.results.map CrawlResult.url).Nodup :=
  c2_no_duplicate_results.1 fetchSite "w.com" "https://w.com/" 8 stSite (by decide)

/-- C3 counterexample: a finite same-domain link graph — the three-URL
universe `abortR` contains the seed, is closed under in-scope extracted
links, and bounds every page at four links — on which the crawl loop does
not drain the frontier and returns no result sequence: even on the fuel
budget that would otherwise suffice, it aborts on the body-read failure of
`/bad` while `/c` (and the duplicate queue entries) are still pending.
This refutes the unconditional termination claim. -/
theorem c3_counterexample :
    "https://w.com/" ∈ abortR ∧
    closureOK fetchAbortSite "w.com" abortR = true ∧
    boundOK fetchAbortSite abortR 4 = true ∧
    crawlLoop fetchAbortSite "w.com" (abortR.length * (4 + 1) + 2)
        ⟨["https://w.com/"], [], []⟩ =
      .aborted "body read failed" := by
  refine ⟨by decide, by decide, by decide, by decide⟩

/-- C3 (amended): for a finite same-domain link graph in which every
fetched response's body can be read — a finite URL universe `R` containing
the seed, closed under in-scope extracted links, with at most `B` links per
page and readable bodies — the crawl run on fuel `R.length * (B + 1) + 2`
drains the frontier (`done`), and the number of results equals the number
of distinct URLs popped and not skipped (the visited list records exactly
those URLs, without duplicates).  Without the readable-bodies proviso a
body-read failure instead aborts the loop with the frontier possibly
non-empty and no result sequence returned. -/
theorem c3_terminates (fetch : Fetch) (bd seed : String) (R : List String) (B : Nat)
    (hseed : seed ∈ R) (hreads : readsOkOn fetch R = true)
    (hclo : closureOK fetch bd R = true) (hbound : boundOK fetch R B = true) :
    doneWithCount (crawlLoop fetch bd (R.length * (B + 1) + 2) ⟨[seed], [], []⟩) := by
  have hsub : ∀ u ∈ ([seed] : List String), u ∈ R := by
    intro u hu
    simp at hu
    subst hu
    exact hseed
  have h1 : (R.filter (fun u => !(([] : List String).contains u))).length ≤ R.length :=
    List.length_filter_le _ _
  have h2 := Nat.mul_le_mul_right (B + 1) h1
  have hmeas : crawlMeasure R B ⟨[seed], [], []⟩ < R.length * (B + 1) + 2 := by
    have e : crawlMeasure R B ⟨[seed], [], []⟩ =
        (R.filter (fun u => !(([] : List String).contains u))).length * (B + 1) + 1 := rfl
    rw [e]
    exact Nat.lt_succ_of_le (Nat.succ_le_succ h2)
  obtain ⟨st', hst'⟩ := crawlLoop_drains hreads hclo hbound _ _ hsub hmeas
  have hinv : StInv bd seed ⟨[seed], [], []⟩ := by
    refine ⟨by simp, by simp, rfl, by simp, by simp, ?_⟩
    intro u hu
    simp at hu
    subst hu
    exact Or.inl rfl
  have hfin := (crawlLoop_done_inv hst' hinv).1
  rw [hst']
  exact ⟨hfin.2.2.1, hfin.2.2.2.1⟩

/-- C3 witness: the termination theorem applied to the concrete two-URL
site, whose hypotheses are all checked by evaluation. -/
theorem c3_terminates_witness :
    "https://w.com/" ∈ siteR ∧ readsOkOn fetchSite siteR = true ∧
    closureOK fetchSite "w.com" siteR = true ∧ boundOK fetchSite siteR 2 = true ∧
    doneWithCount (crawlLoop fetchSite "w.com" (siteR.length * (2 + 1) + 2)
      ⟨["https://w.com/"], [], []⟩) :=
  ⟨by decide, by decide, by decide, by decide,
   c3_terminates fetchSite "w.com" "https://w.com/" siteR 2
     (by decide) (by decide) (by decide) (by decide)⟩

/-- C4: given a successfully constructed crawler (base domain extracted from
the seed), `is_same_domain u` is true iff `u` parses and its host equals the
base domain by exact string equality — no subdomain matching, no scheme
restriction; unparseable URLs are out of scope (the right-hand side is then
unsatisfiable). -/
theorem c4_domain_filter (start_url bd u : String)
    (hbd : crawlerBaseDomain start_url = some bd) :
    is_same_domain bd u = true ↔ ∃ p : Url, parseUrl u.data = some p ∧ p.host = bd.data := by
  have hip : isIpv4Chars bd.data = false := by
    unfold crawlerBaseDomain at hbd
    revert hbd
    cases hp : parseUrl start_url.data with
    | none => intro hbd; exact absurd hbd (by simp)
    | some p0 =>
      intro hbd
      have hbd2 : p0.domain.map String.mk = some bd := hbd
      unfold Url.domain at hbd2
      by_cases hi : isIpv4Chars p0.host = true
      · rw [if_pos hi] at hbd2
        exact absurd hbd2 (by simp)
      · rw [if_neg hi] at hbd2
        have hmk : String.mk p0.host = bd := by simpa using hbd2
        have hdata : bd.data = p0.host := by rw [← hmk]
        rw [hdata]
        cases h0 : isIpv4Chars p0.host with
        | true => exact absurd h0 hi
        | false => rfl
  unfold is_same_domain
  cases hp : parseUrl u.data with
  | none =>
    show (false = true) ↔ _
    simp
  | some p =>
    show ((p.domain == some bd.data) = true) ↔ _
    rw [beq_iff_eq]
    constructor
    · intro hdq
      unfold Url.domain at hdq
      by_cases hi : isIpv4Chars p.host = true
      · rw [if_pos hi] at hdq
        exact absurd hdq (by simp)
      · rw [if_neg hi] at hdq
        exact ⟨p, rfl, Option.some.inj hdq⟩
    · rintro ⟨p2, hp2, hhost⟩
      obtain rfl := Option.some.inj hp2
      unfold Url.domain
      rw [hhost, if_neg (by rw [hip]; simp)]

/-- C4 witness: with seed `https://example.com/` the filter accepts an
in-scope URL via the theorem, applied in the host-equality direction. -/
theorem c4_domain_filter_witness :
    is_same_domain "example.com" "https://example.com/a" = true :=
  (c4_domain_filter "https://example.com/" "example.com" "https://example.com/a"
    (by decide)).mpr
    ⟨⟨"https".data, "example.com".data, ["a".data], none, none⟩, by decide, by decide⟩

/-- C5: classification of a successful response depends only on the declared
content-type header: a (case-sensitive) `text/html` prefix routes to an
`Html` result, everything else — including a missing header, read as the
empty string — routes to a `File` result carrying the content-type string
and the raw body bytes. -/
theorem c5_content_classification (bd url : String) (rest visited2 : List String)
    (results : List CrawlResult) (resp : Response) (body : String) (bs : List UInt8)
    (ht : resp.text = .ok body) (hb : resp.bytes = .ok bs) :
    (handleResponse bd url rest visited2 results resp =
      .ok (if strStarts (resp.contentType.getD "") "text/html" = true then
        ⟨rest ++ (parse_html url body).filter
            (fun l => !visited2.contains l && is_same_domain bd l),
          visited2, results ++ [.Html url (parse_html url body)]⟩
      else ⟨rest, visited2, results ++ [.File url (resp.contentType.getD "") bs]⟩)) ∧
    (resp.contentType = none →
      handleResponse bd url rest visited2 results resp =
        .ok ⟨rest, visited2, results ++ [.File url "" bs]⟩) := by
  constructor
  · unfold handleResponse
    by_cases hct : strStarts (resp.contentType.getD "") "text/html" = true
    · rw [if_pos hct, if_pos hct, ht]
    · rw [if_neg hct, if_neg hct, hb]
  · intro hnone
    unfold handleResponse
    rw [hnone]
    have hct : strStarts ((none : Option String).getD "") "text/html" = false := by decide
    rw [if_neg (by rw [hct]; simp), hb]
    rfl

/-- C5 witness: a `image/png` response becomes a `File` result with the
declared content type and raw bytes. -/
theorem c5_content_classification_witness :
    handleResponse "w.com" "https://w.com/p" [] [] []
        ⟨some "image/png", .ok "", .ok [7]⟩ =
      .ok ⟨[], [], [.File "https://w.com/p" "image/png" [7]]⟩ :=
  ((c5_content_classification "w.com" "https://w.com/p" [] [] []
    ⟨some "image/png", .ok "", .ok [7]⟩ "" [7] rfl rfl).1).trans rfl

/-- C6: `parse_html` is the structural strategy output followed by the
pattern strategy output, never failing; on the dual-strategy example the
structural pass sees only the real anchor while the pattern pass also
captures the single-quoted `src` inside a comment, and the cross-strategy
duplicate is kept. -/
theorem c6_dual_strategy :
    (∀ base_url html : String, parse_html base_url html =
      parse_html_with_scraper base_url html ++ parse_html_with_regex base_url html) ∧
    parse_html_with_scraper "https://example.com/" dualHtml = ["https://example.com/a"] ∧
    parse_html_with_regex "https://example.com/" dualHtml =
      ["https://example.com/a", "https://example.com/b"] ∧
    parse_html "https://example.com/" dualHtml =
      ["https://example.com/a", "https://example.com/a", "https://example.com/b"] :=
  ⟨fun _ _ => rfl, by decide, by decide, by decide⟩

/-- C7: an href that parses as absolute is returned in the parser's
canonical serialization; a relative href resolves against the parsed base
(concretely, `../img/x.png` against `https://example.com/dir/page.html`
gives `https://example.com/img/x.png`); when both parses fail the candidate
is silently dropped. -/
theorem c7_normalize_cases :
    (∀ (base_url href : String) (u : Url), parseUrl href.data = some u →
       normalize_url base_url href = some u.render) ∧
    (∀ (base_url href : String) (b : Url), parseUrl href.data = none →
       parseUrl base_url.data = some b →
       normalize_url base_url href = (b.join href.data).map Url.render) ∧
    (∀ base_url href : String, parseUrl href.data = none → parseUrl base_url.data = none →
       normalize_url base_url href = none) ∧
    normalize_url "https://example.com/dir/page.html" "../img/x.png" =
      some "https://example.com/img/x.png" := by
  refine ⟨?_, ?_, ?_, by decide⟩
  · intro base href u h
    unfold normalize_url
    rw [h]
  · intro base href b h hb
    simp [normalize_url, h, hb]
  · intro base href h hb
    simp [normalize_url, h, hb]

/-- C7 witness: an uppercase absolute href passes through canonicalized; an
unparseable base and href yield nothing. -/
theorem c7_normalize_cases_witness :
    normalize_url "https://a.com/" "HTTPS://B.com/x" = some "https://b.com/x" ∧
    normalize_url ":" ":" = none := by
  constructor
  · exact (c7_normalize_cases.1 "https://a.com/" "HTTPS://B.com/x"
      ⟨"https".data, "b.com".data, ["x".data], none, none⟩ (by decide)).trans (by decide)
  · exact c7_normalize_cases.2.2.1 ":" ":" (by decide) (by decide)

/-- C8: normalization is idempotent on its own output — whatever
`normalize_url` returns is returned unchanged when normalized again against
the same base. -/
theorem c8_normalize_idempotent (base_url href u : String)
    (h : normalize_url base_url href = some u) :
    normalize_url base_url u = some u := by
  obtain ⟨w, hw, rfl⟩ := normalize_url_render h
  exact normalize_url_of_render hw

/-- C8 witness: the idempotence theorem applied to the output of a relative
resolution. -/
theorem c8_normalize_idempotent_witness :
    normalize_url "https://e.com/a/" "https://e.com/x" = some "https://e.com/x" :=
  c8_normalize_idempotent "https://e.com/a/" "../x" "https://e.com/x" (by decide)

/-- C9: the frontier is strictly FIFO — on completion, the sequence of
result URLs equals the breadth-first discovery order of the link graph
induced by the fetch oracle, with extracted links enqueued in extraction
order (the spec-side `bfsOrder` is modelled from the specification). -/
theorem c9_breadth_first (fetch : Fetch) (bd seed : String) (fuel : Nat) (st' : CrawlState)
    (h : crawlLoop fetch bd fuel ⟨[seed], [], []⟩ = .done st') :
    st'.results.map CrawlResult.url =
      bfsOrder (pageLinks fetch) (is_same_domain bd) fuel [seed] [] := by
  have := crawlLoop_bfs h
  simpa using this

/-- C9 witness: the BFS theorem applied to the concrete two-URL site. -/
theorem c9_breadth_first_witness :
    stSite.results.map CrawlResult.url =
      bfsOrder (pageLinks fetchSite) (is_same_domain "w.com") 8 ["https://w.com/"] [] :=
  c9_breadth_first fetchSite "w.com" "https://w.com/" 8 stSite (by decide)

/-- C10: a processed response pushes exactly the extracted links that pass
both the not-yet-visited check and the domain filter at push time; as a
consequence, every result of a completed crawl except possibly the seed has
a URL in the crawl domain. -/
theorem c10_scope_invariant :
    (∀ (bd url : String) (rest visited2 : List String) (results : List CrawlResult)
       (resp : Response) (st2 : CrawlState),
       handleResponse bd url rest visited2 results resp = .ok st2 →
       st2.to_visit = rest ++ (respLinks url resp).filter
         (fun l => !visited2.contains l && is_same_domain bd l)) ∧
    (∀ (fetch : Fetch) (bd seed : String) (fuel : Nat) (st' : CrawlState),
       crawlLoop fetch bd fuel ⟨[seed], [], []⟩ = .done st' →
       st'.results.all (fun r => CrawlResult.url r == seed ||
         is_same_domain bd (CrawlResult.url r)) = true) := by
  constructor
  · intro bd url rest visited2 results resp st2 h
    exact (handleResponse_ok h).2.2
  · intro fetch bd seed fuel st' h
    have hinv : StInv bd seed ⟨[seed], [], []⟩ := by
      refine ⟨by simp, by simp, rfl, by simp, by simp, ?_⟩
      intro u hu
      simp at hu
      subst hu
      exact Or.inl rfl
    have hscope := ((crawlLoop_done_inv h hinv).1).2.2.2.2.1
    refine List.all_eq_true.mpr ?_
    intro r hr
    rcases hscope r hr with heq | hs
    · rw [heq]
      simp
    · rw [hs]
      simp

/-- C10 witness: the scope theorem applied to the concrete two-URL site. -/
theorem c10_scope_invariant_witness :
    stSite.results.all (fun r => CrawlResult.url r == "https://w.com/" ||
      is_same_domain "w.com" (CrawlResult.url r)) = true :=
  c10_scope_invariant.2 fetchSite "w.com" "https://w.com/" 8 stSite (by decide)
